import Mathlib

/-!
Verification development for a terminal Pomodoro timer
(`pomodoro_timer.py`).  The program's core is (a) an interruptible
countdown timer with resume / restart / abandon handling
(`run_timer`, `run_timer_simple`), (b) a cycle controller
(`run_pomodoro_cycle`), and (c) a statistics engine (`compute_stats`)
deriving streaks, daily/hourly buckets and a trailing 7-day window from
the persisted session log.

Modelling conventions:
* Wall-clock durations are rationals (minutes).  A countdown segment is
  modelled by its observable outcome: either the remaining time reached
  zero (idealised elapsed = planned; the sub-second polling overshoot and
  the 2-decimal rounding of `log_session` are elided), or a Ctrl+C stop
  after a given elapsed time.
* `started_at` timestamps are modelled by an integer calendar-day index
  (the `started_at[:10]` slice) and an hour of day
  (`int(started_at[11:13])`); `date.today()` becomes an explicit `today`
  parameter, and `timedelta(days = 1)` becomes integer subtraction.
* The empty dict returned by `compute_stats` for an empty log is
  modelled as `none`.
-/

namespace PomodoroTimer

/-- Session-log entry written by the timer engine: the fields passed to
`log_session` (`started_at`, stamped there from the external wall clock,
is irrelevant to the timer-engine claims and omitted). -/
structure TimerLogEntry where
  type : String
  planned_minutes : ℚ
  actual_minutes : ℚ
  completed : Bool
  label : String
deriving DecidableEq

/-- Menu choice `run_timer` offers after a `TimerInterrupt`
(`1` continue, `2` restart, `3` stop and save partial). -/
inductive IChoice where
  | resume
  | restart
  | abandon
deriving DecidableEq

/-- Observable outcome of one countdown segment: the remaining time
reached zero, or the user stopped it after `elapsed` minutes and then
made a menu choice (`run_timer_simple` has no menu and ignores the
choice). -/
inductive Step where
  | complete
  | stop (elapsed : ℚ) (choice : IChoice)
deriving DecidableEq

/-- Model of `run_timer_simple`: the non-resumable countdown used for a
resumed session.  Natural completion logs `(minutes, minutes, True)`;
any interruption immediately logs the partial segment
`(minutes, elapsed, False)`.  Returns the records logged and the bool
the function returns. -/
def run_timer_simple (ty : String) (minutes : ℚ) (label : String) :
    Step → List TimerLogEntry × Bool
  | .complete => ([⟨ty, minutes, minutes, true, label⟩], true)
  | .stop e _ => ([⟨ty, minutes, e, false, label⟩], false)

/-- Model of `run_timer`, driven by a script of segment outcomes (one
`Step` per countdown segment started).  Natural completion logs a
completed record.  On interruption: `abandon` logs the partial segment;
`restart` re-runs `run_timer` with the original minutes and logs nothing
for the discarded attempt; `resume` computes
`remaining = minutes - elapsed` and, when `remaining > 0.1`, hands off
to `run_timer_simple` for one more segment — otherwise it returns `True`
immediately.  `none` means the script was exhausted. -/
def run_timer (ty : String) (minutes : ℚ) (label : String) :
    List Step → Option (List TimerLogEntry × Bool)
  | [] => none
  | .complete :: _ => some ([⟨ty, minutes, minutes, true, label⟩], true)
  | .stop e c :: rest =>
    match c with
    | .abandon => some ([⟨ty, minutes, e, false, label⟩], false)
    | .restart => run_timer ty minutes label rest
    | .resume =>
      if (1 / 10 : ℚ) < minutes - e then
        match rest with
        | [] => none
        | s :: _ => some (run_timer_simple ty (minutes - e) label s)
      else some ([], true)

/-- User responses consumed by one iteration of the Pomodoro cycle loop:
the y/n answer to a break offer, the focus-session outcome, and the
continue-cycle answer. -/
structure CycleIn where
  accept : Bool
  completed : Bool
  cont : Bool
deriving DecidableEq

/-- Observable action of one cycle iteration, annotated with the
`session_count` state before and after it. -/
inductive CAction where
  | longBreakOffer (pre : ℕ) (accepted : Bool) (post : ℕ)
  | focusRun (pre : ℕ) (completed : Bool) (post : ℕ)
deriving DecidableEq

/-- Model of the `run_pomodoro_cycle` loop.  At the top of each
iteration: if `session_count > 0` and `session_count % N == 0` the long
break is offered and the counter resets to zero (whether or not the
break is accepted); otherwise a focus session runs, the counter is
incremented exactly when it completed, and the loop continues only if
the user says so.  The input list bounds the number of iterations
(exhaustion = the user walking away). -/
def run_pomodoro_cycle (N : ℕ) : ℕ → List CycleIn → List CAction
  | _, [] => []
  | count, inp :: rest =>
    if 0 < count ∧ count % N = 0 then
      .longBreakOffer count inp.accept 0 :: run_pomodoro_cycle N 0 rest
    else
      .focusRun count inp.completed (if inp.completed then count + 1 else count) ::
        (if inp.cont then
          run_pomodoro_cycle N (if inp.completed then count + 1 else count) rest
        else [])

/-- Relation used to state that an interrupted focus session is never
immediately followed by a long-break offer. -/
def NoOfferAfterInterrupted : CAction → CAction → Prop
  | .focusRun _ false _, .longBreakOffer _ _ _ => False
  | _, _ => True

/-- Persisted session record as consumed by `compute_stats`.
`started_at` is modelled by its calendar day (`day`, an integer day
index, the `started_at[:10]` slice with date order) and its hour of day
(`hour`, from `int(started_at[11:13])`). -/
structure SessionRecord where
  type : String
  planned_minutes : ℚ
  actual_minutes : ℚ
  completed : Bool
  label : String
  day : ℤ
  hour : ℕ
deriving DecidableEq

/-- The list comprehension `[s for s in sessions if s["type"] == "focus"]`. -/
def focus_sessions (recs : List SessionRecord) : List SessionRecord :=
  recs.filter fun s => decide (s.type = "focus")

/-- The list comprehension `[s for s in focus_sessions if s["completed"]]`. -/
def completed_focus (recs : List SessionRecord) : List SessionRecord :=
  (focus_sessions recs).filter fun s => s.completed

/-- The `daily[d]["sessions"]` bucket field: focus sessions started on
day `d` (zero when the key `d` is absent from the defaultdict). -/
def daily_sessions (recs : List SessionRecord) (d : ℤ) : ℕ :=
  ((focus_sessions recs).filter fun s => decide (s.day = d)).length

/-- The `daily[d]["minutes"]` bucket field. -/
def daily_minutes (recs : List SessionRecord) (d : ℤ) : ℚ :=
  (((focus_sessions recs).filter fun s => decide (s.day = d)).map
    fun s => s.actual_minutes).sum

/-- The `daily[d]["completed"]` bucket field. -/
def daily_completed (recs : List SessionRecord) (d : ℤ) : ℕ :=
  ((completed_focus recs).filter fun s => decide (s.day = d)).length

/-- The streak test `ds in daily and daily[ds]["completed"] > 0`
(an absent key has `daily_completed = 0`, so the membership test is
subsumed). -/
def active_day (recs : List SessionRecord) (d : ℤ) : Bool :=
  decide (0 < daily_completed recs d)

/-- The key set of the `daily` defaultdict: days on which at least one
focus session started. -/
def daily_days (recs : List SessionRecord) : List ℤ :=
  (((focus_sessions recs)).map fun s => s.day).dedup

/-- `sorted(daily.keys())`: the distinct focus days in increasing
order. -/
def sorted_days (recs : List SessionRecord) : List ℤ :=
  List.insertionSort (· ≤ ·) (daily_days recs)

/-- The key set of the `hourly` defaultdict. -/
def hourly_hours (recs : List SessionRecord) : List ℕ :=
  (((focus_sessions recs)).map fun s => s.hour).dedup

/-- The streak-variable update of the best-streak loop body:
`streak = 1` at index 0, else `streak + 1 if prev == expected_prev
else 1` where `expected_prev` is the calendar predecessor of `d`. -/
def streak_next (prev : Option ℤ) (d : ℤ) (streak : ℕ) : ℕ :=
  match prev with
  | none => 1
  | some p => if p = d - 1 then streak + 1 else 1

/-- The best-streak `for` loop over `sorted_days`, carrying the
previously visited key, the running `streak` and `best_streak`.  On an
active day the streak advances and `best_streak = max(best_streak,
streak)`; on a present-but-inactive day `streak = 0`. -/
def best_streak_go (active : ℤ → Bool) :
    List ℤ → Option ℤ → ℕ → ℕ → ℕ
  | [], _, _, best => best
  | d :: rest, prev, streak, best =>
    if active d then
      best_streak_go active rest (some d) (streak_next prev d streak)
        (max best (streak_next prev d streak))
    else
      best_streak_go active rest (some d) 0 best

/-- The `best_streak` value `compute_stats` reports. -/
def best_streak (recs : List SessionRecord) : ℕ :=
  best_streak_go (active_day recs) (sorted_days recs) none 0 0

/-- The current-streak loop: up to `fuel` times (365 in the source),
check the current date and either count it and step one day back, or
break. -/
def current_streak_go (active : ℤ → Bool) : ℕ → ℤ → ℕ → ℕ
  | 0, _, acc => acc
  | fuel + 1, d, acc =>
    if active d then current_streak_go active fuel (d - 1) (acc + 1) else acc

/-- The `current_streak` value `compute_stats` reports: walk backward
from `today`, at most 365 days. -/
def current_streak (recs : List SessionRecord) (today : ℤ) : ℕ :=
  current_streak_go (active_day recs) 365 today 0

/-- The weekly-minutes loop: `for i in range(7)`, adding the bucket of
`today - i` when that key is present. -/
def week_minutes (recs : List SessionRecord) (today : ℤ) : ℚ :=
  ∑ i ∈ Finset.range 7,
    if 0 < daily_sessions recs (today - (i : ℤ)) then
      daily_minutes recs (today - (i : ℤ))
    else 0

/-- The weekly-sessions loop, same shape as `week_minutes`. -/
def week_sessions (recs : List SessionRecord) (today : ℤ) : ℕ :=
  ∑ i ∈ Finset.range 7,
    if 0 < daily_sessions recs (today - (i : ℤ)) then
      daily_sessions recs (today - (i : ℤ))
    else 0

/-- `max(daily.items(), key=minutes)` when `daily` is non-empty, else
`None`; ties keep the earlier candidate (the tie order of the Python
dict, insertion order, is not otherwise observable in the claims). -/
def best_day (recs : List SessionRecord) : Option ℤ :=
  match sorted_days recs with
  | [] => none
  | d :: rest =>
    some (rest.foldl
      (fun acc d2 =>
        if daily_minutes recs acc < daily_minutes recs d2 then d2 else acc) d)

/-- The dict `compute_stats` returns in the non-empty case. -/
structure StatsReport where
  total_focus_minutes : ℚ
  total_completed_minutes : ℚ
  total_focus_sessions : ℕ
  completed_focus_sessions : ℕ
  completion_rate : ℚ
  current_streak : ℕ
  best_streak : ℕ
  daily_days : List ℤ
  hourly_hours : List ℕ
  best_day : Option ℤ
  week_minutes : ℚ
  week_sessions : ℕ
  first_session_date : Option ℤ
deriving DecidableEq

/-- The report built by the non-empty branch of `compute_stats`. -/
def mk_report (recs : List SessionRecord) (today : ℤ) : StatsReport where
  total_focus_minutes := ((focus_sessions recs).map fun s => s.actual_minutes).sum
  total_completed_minutes := ((completed_focus recs).map fun s => s.actual_minutes).sum
  total_focus_sessions := (focus_sessions recs).length
  completed_focus_sessions := (completed_focus recs).length
  completion_rate :=
    if focus_sessions recs = [] then 0
    else ((completed_focus recs).length : ℚ) / ((focus_sessions recs).length : ℚ) * 100
  current_streak := current_streak recs today
  best_streak := best_streak recs
  daily_days := daily_days recs
  hourly_hours := hourly_hours recs
  best_day := best_day recs
  week_minutes := week_minutes recs today
  week_sessions := week_sessions recs today
  first_session_date := recs.head?.map fun s => s.day

/-- Model of `compute_stats`: the empty dict returned for an empty log
is `none`; otherwise the full report (a pure function of the log and
the current local date). -/
def compute_stats (recs : List SessionRecord) (today : ℤ) : Option StatsReport :=
  if recs = [] then none else some (mk_report recs today)

/-- Run predicate used to state streak claims: the `n` consecutive
calendar days starting at `d` are all active. -/
def RunFrom (active : ℤ → Bool) (d : ℤ) (n : ℕ) : Prop :=
  ∀ i : ℕ, i < n → active (d + (i : ℤ)) = true

/-- Run predicate in the other direction: the `n` consecutive calendar
days ending at `q` are all active. -/
def RunEndAt (active : ℤ → Bool) (q : ℤ) (n : ℕ) : Prop :=
  ∀ i : ℕ, i < n → active (q - (i : ℤ)) = true

/-- Outcome of Python's `int()` on the duration answer in
`screen_focus_session`: the string was empty (falsy, `int` never runs),
`int` raised `ValueError`, or it parsed to `n`. -/
inductive DurationInput where
  | empty
  | invalid
  | value (n : ℤ)
deriving DecidableEq

/-- Model of `if minutes <= 0: minutes = config["focus_minutes"]`. -/
def clamp_to_default (m dflt : ℤ) : ℤ :=
  if m ≤ 0 then dflt else m

/-- Duration-selection logic of `screen_focus_session`: empty input
takes the configured default (then the non-positive check, a no-op for
it), a `ValueError` is caught and replaced by the default, and a parsed
value is replaced by the default when non-positive.  The result is the
`minutes` handed to `run_timer("focus", minutes, label)`. -/
def screen_focus_session_minutes (inp : DurationInput) (dflt : ℤ) : ℤ :=
  match inp with
  | .empty => clamp_to_default dflt dflt
  | .invalid => dflt
  | .value n => clamp_to_default n dflt

/-- Shorthand for a focus record used in concrete logs. -/
def focusRec (d : ℤ) (c : Bool) : SessionRecord :=
  ⟨"focus", 25, 25, c, "", d, 9⟩

/-- Log with completed focus sessions on five consecutive days (0–4), a
one-day gap (day 5), then two more consecutive days (6–7). -/
def log_gap : List SessionRecord :=
  [focusRec 0 true, focusRec 1 true, focusRec 2 true, focusRec 3 true,
   focusRec 4 true, focusRec 6 true, focusRec 7 true]

/-- Log with completed focus sessions on 2024-01-01 through 2024-01-03,
encoded as day indices 0, 1, 2 (so 2024-01-04 is day 3 and "today" =
2024-01-05 is day 4). -/
def log_jan : List SessionRecord :=
  [focusRec 0 true, focusRec 1 true, focusRec 2 true]

/-- Log with a single completed focus session on day 0. -/
def log_one : List SessionRecord := [focusRec 0 true]

/-- Log with a single short-break record and no focus sessions. -/
def log_break : List SessionRecord := [⟨"short", 5, 5, true, "", 0, 9⟩]

section TimerClaims

/-- Claim C1 (counterexample): interrupt a 25-minute focus session
after 10 minutes, resume, and let the resumed segment run out.  The
claim says the one persisted record keeps the originally planned
duration (25) and accumulates all segments (10 + 15 = 25); in the code
the final record is written by `run_timer_simple`, whose planned
duration is the remaining 15 and whose actual duration is the last
segment's 15 alone. -/
theorem run_timer_resume_counterexample :
    ¬ (∀ (entries : List TimerLogEntry) (b : Bool),
        run_timer "focus" 25 ""
            [Step.stop 10 IChoice.resume, Step.complete] = some (entries, b) →
        ∀ r ∈ entries, r.planned_minutes = 25 ∧ r.actual_minutes = 10 + 15) := by
  intro h
  have h1 : run_timer "focus" 25 "" [Step.stop 10 IChoice.resume, Step.complete]
      = some ([⟨"focus", 15, 15, true, ""⟩], true) := by
    simp [run_timer, run_timer_simple]
    norm_num
  have h2 := h _ _ h1 ⟨"focus", 15, 15, true, ""⟩ (List.mem_singleton.mpr rfl)
  norm_num at h2

/-- Claim C1 (amended): when a session of `m` planned minutes is
interrupted after `e` minutes and resumed with more than 0.1 minutes
remaining, the single persisted record has `planned_minutes = m - e`
(the remaining time, not the original plan), `actual_minutes` equal to
the elapsed time of the final segment alone (`m - e` on natural
completion, the stop time otherwise), and `completed` true iff the
resumed segment reached zero remaining; a resumed segment cannot be
resumed again. -/
theorem run_timer_resume_final_record (ty : String) (m e e2 : ℚ)
    (label : String) (rest : List Step) (c : IChoice)
    (h : (1 / 10 : ℚ) < m - e) :
    run_timer ty m label (Step.stop e IChoice.resume :: Step.complete :: rest)
      = some ([⟨ty, m - e, m - e, true, label⟩], true)
    ∧ run_timer ty m label (Step.stop e IChoice.resume :: Step.stop e2 c :: rest)
      = some ([⟨ty, m - e, e2, false, label⟩], false) := by
  constructor <;> simp [run_timer, run_timer_simple, h] <;> linarith

/-- Concrete instance of the amended C1 theorem. -/
theorem run_timer_resume_final_record_witness :
    run_timer "focus" 25 "" [Step.stop 10 IChoice.resume, Step.complete]
      = some ([⟨"focus", 25 - 10, 25 - 10, true, ""⟩], true) :=
  (run_timer_resume_final_record "focus" 25 10 3 "" [] IChoice.abandon
    (by norm_num)).1

/-- Claim C2 (counterexample): a 25-minute session interrupted after
24.95 minutes and resumed has remaining 0.05 ≤ 0.1, so `run_timer`
returns `True` (reported completed) without appending any record —
refuting "every run reported as completed appends a record". -/
theorem run_timer_missing_record_counterexample :
    ¬ (∀ (ty : String) (m : ℚ) (label : String) (script : List Step)
        (entries : List TimerLogEntry) (b : Bool),
        run_timer ty m label script = some (entries, b) → b = true →
        entries.length = 1) := by
  intro h
  have h1 : run_timer "focus" 25 "" [Step.stop (499 / 20) IChoice.resume]
      = some ([], true) := by
    simp [run_timer]
    norm_num
  have h2 := h _ _ _ _ _ _ h1 rfl
  simp at h2

/-- Claim C2 (amended): every terminal run appends exactly one session
record — one for a natural completion and one for each abandon, none
for a restart's discarded attempt or a resume handoff — except a resume
whose remaining time is at most 0.1 minutes, which reports the run
completed while appending no record. -/
theorem run_timer_record_count (ty : String) (m : ℚ) (label : String) :
    ∀ (script : List Step) (entries : List TimerLogEntry) (b : Bool),
      run_timer ty m label script = some (entries, b) →
      entries.length = 1 ∨
        (entries = [] ∧ b = true ∧
          ∃ e : ℚ, Step.stop e IChoice.resume ∈ script ∧ m - e ≤ 1 / 10) := by
  intro script
  induction script with
  | nil => intro entries b h; simp [run_timer] at h
  | cons s rest ih =>
    intro entries b h
    match s with
    | .complete =>
      simp [run_timer] at h
      left
      rw [← h.1]
      rfl
    | .stop e c =>
      match c with
      | .abandon =>
        simp [run_timer] at h
        left
        rw [← h.1]
        rfl
      | .restart =>
        have h' : run_timer ty m label rest = some (entries, b) := h
        rcases ih entries b h' with h1 | ⟨h1, h2, e2, hmem, hle⟩
        · exact Or.inl h1
        · exact Or.inr ⟨h1, h2, e2, List.mem_cons_of_mem _ hmem, hle⟩
      | .resume =>
        simp only [run_timer] at h
        by_cases hrem : (1 / 10 : ℚ) < m - e
        · rw [if_pos hrem] at h
          match rest with
          | [] => simp at h
          | s2 :: r2 =>
            left
            cases s2 with
            | complete =>
              simp only [run_timer_simple, Option.some.injEq,
                Prod.mk.injEq] at h
              rw [← h.1]
              rfl
            | stop e3 c3 =>
              simp only [run_timer_simple, Option.some.injEq,
                Prod.mk.injEq] at h
              rw [← h.1]
              rfl
        · rw [if_neg hrem] at h
          simp only [Option.some.injEq, Prod.mk.injEq] at h
          exact Or.inr ⟨h.1.symm, h.2.symm,
            e, List.mem_cons_self _ _, le_of_not_lt hrem⟩

/-- Concrete instance of the amended C2 theorem: an uninterrupted run
appends exactly one record. -/
theorem run_timer_record_count_witness :
    ([(⟨"focus", 25, 25, true, ""⟩ : TimerLogEntry)]).length = 1 ∨
      ([(⟨"focus", 25, 25, true, ""⟩ : TimerLogEntry)] = [] ∧ true = true ∧
        ∃ e : ℚ, Step.stop e IChoice.resume ∈ [Step.complete] ∧
          (25 : ℚ) - e ≤ 1 / 10) :=
  run_timer_record_count "focus" 25 "" [Step.complete]
    [⟨"focus", 25, 25, true, ""⟩] true (by simp [run_timer])

end TimerClaims

section CycleClaims

/-- Every long-break offer in a cycle trace resets the counter to zero
and happens at a positive counter value divisible by `N`. -/
theorem cycle_offer_mem (N : ℕ) :
    ∀ (inputs : List CycleIn) (count pre : ℕ) (acc : Bool) (post : ℕ),
      CAction.longBreakOffer pre acc post ∈ run_pomodoro_cycle N count inputs →
      post = 0 ∧ 0 < pre ∧ pre % N = 0 := by
  intro inputs
  induction inputs with
  | nil => intro count pre acc post h; simp [run_pomodoro_cycle] at h
  | cons inp rest ih =>
    intro count pre acc post h
    rw [run_pomodoro_cycle] at h
    by_cases htrig : 0 < count ∧ count % N = 0
    · rw [if_pos htrig] at h
      rcases List.mem_cons.mp h with heq | hmem
      · rcases heq with ⟨rfl, rfl, rfl⟩
        exact ⟨rfl, htrig.1, htrig.2⟩
      · exact ih 0 pre acc post hmem
    · rw [if_neg htrig] at h
      rcases List.mem_cons.mp h with heq | hmem
      · exact absurd heq (by simp)
      · by_cases hc : inp.cont
        · rw [if_pos hc] at hmem
          exact ih _ pre acc post hmem
        · rw [if_neg hc] at hmem
          simp at hmem

/-- Every focus action in a cycle trace increments the counter exactly
when the session completed. -/
theorem cycle_focus_mem (N : ℕ) :
    ∀ (inputs : List CycleIn) (count pre : ℕ) (c : Bool) (post : ℕ),
      CAction.focusRun pre c post ∈ run_pomodoro_cycle N count inputs →
      post = if c then pre + 1 else pre := by
  intro inputs
  induction inputs with
  | nil => intro count pre c post h; simp [run_pomodoro_cycle] at h
  | cons inp rest ih =>
    intro count pre c post h
    rw [run_pomodoro_cycle] at h
    by_cases htrig : 0 < count ∧ count % N = 0
    · rw [if_pos htrig] at h
      rcases List.mem_cons.mp h with heq | hmem
      · exact absurd heq (by simp)
      · exact ih 0 pre c post hmem
    · rw [if_neg htrig] at h
      rcases List.mem_cons.mp h with heq | hmem
      · rcases heq with ⟨rfl, rfl, rfl⟩
        rfl
      · by_cases hc : inp.cont
        · rw [if_pos hc] at hmem
          exact ih _ pre c post hmem
        · rw [if_neg hc] at hmem
          simp at hmem

/-- The loop opens with the long-break offer exactly when the counter
at the loop top is positive and divisible by `N`. -/
theorem cycle_head_offer (N count : ℕ) (inp : CycleIn) (rest : List CycleIn) :
    (run_pomodoro_cycle N count (inp :: rest)).head?
        = some (CAction.longBreakOffer count inp.accept 0)
      ↔ (0 < count ∧ count % N = 0) := by
  rw [run_pomodoro_cycle]
  by_cases htrig : 0 < count ∧ count % N = 0
  · simp [htrig]
  · rw [if_neg htrig]
    simp [htrig]

/-- In a cycle trace, an interrupted focus session is never immediately
followed by a long-break offer. -/
theorem cycle_no_offer_after_interrupted (N : ℕ) :
    ∀ (inputs : List CycleIn) (count : ℕ),
      (run_pomodoro_cycle N count inputs).Chain' NoOfferAfterInterrupted := by
  intro inputs
  induction inputs with
  | nil => intro count; simp [run_pomodoro_cycle]
  | cons inp rest ih =>
    intro count
    rw [run_pomodoro_cycle]
    by_cases htrig : 0 < count ∧ count % N = 0
    · rw [if_pos htrig]
      refine List.chain'_cons'.mpr ⟨?_, ih 0⟩
      intro b _
      trivial
    · rw [if_neg htrig]
      refine List.chain'_cons'.mpr ⟨?_, ?_⟩
      · intro b hb
        by_cases hcomp : inp.completed
        · simp [NoOfferAfterInterrupted, hcomp]
        · simp only [Bool.not_eq_true] at hcomp
          rw [hcomp] at hb ⊢
          by_cases hc : inp.cont
          · rw [if_pos hc] at hb
            match rest with
            | [] => simp [run_pomodoro_cycle] at hb
            | inp2 :: r2 =>
              rw [run_pomodoro_cycle, if_neg (by simpa using htrig)] at hb
              simp only [List.head?_cons, Option.mem_def,
                Option.some.injEq] at hb
              rw [← hb]
              trivial
          · rw [if_neg hc] at hb
            simp at hb
      · by_cases hc : inp.cont
        · rw [if_pos hc]
          exact ih _
        · rw [if_neg hc]
          simp

/-- Claim C3: in the Pomodoro cycle controller with
`sessions_before_long_break = N > 0`, the completed-focus counter
increments only when a focus session completes (an interrupted one
leaves it unchanged), a long-break offer opens an iteration exactly
when the counter is a positive multiple of `N`, an interrupted focus
session never triggers the long-break check, and the counter resets to
zero after a long-break offer. -/
theorem cycle_counter_policy (N : ℕ) (hN : 0 < N) (count : ℕ)
    (inputs : List CycleIn) :
    (∀ pre acc post,
        CAction.longBreakOffer pre acc post ∈ run_pomodoro_cycle N count inputs →
        post = 0 ∧ 0 < pre ∧ N ∣ pre)
    ∧ (∀ pre c post,
        CAction.focusRun pre c post ∈ run_pomodoro_cycle N count inputs →
        post = if c then pre + 1 else pre)
    ∧ (∀ (inp : CycleIn) (rest : List CycleIn),
        (run_pomodoro_cycle N count (inp :: rest)).head?
            = some (CAction.longBreakOffer count inp.accept 0)
          ↔ (0 < count ∧ N ∣ count))
    ∧ (run_pomodoro_cycle N count inputs).Chain' NoOfferAfterInterrupted := by
  refine ⟨?_, ?_, ?_, cycle_no_offer_after_interrupted N inputs count⟩
  · intro pre acc post h
    obtain ⟨h1, h2, h3⟩ := cycle_offer_mem N inputs count pre acc post h
    exact ⟨h1, h2, Nat.dvd_iff_mod_eq_zero.mpr h3⟩
  · exact fun pre c post h => cycle_focus_mem N inputs count pre c post h
  · intro inp rest
    rw [cycle_head_offer N count inp rest, Nat.dvd_iff_mod_eq_zero]

/-- Concrete instance of the C3 theorem: with `N = 4` and four
completed focus sessions, the next iteration opens with the long-break
offer. -/
theorem cycle_counter_policy_witness :
    (run_pomodoro_cycle 4 4 [⟨true, true, true⟩]).head?
      = some (CAction.longBreakOffer 4 true 0) :=
  ((cycle_counter_policy 4 (by norm_num) 4 []).2.2.1
    ⟨true, true, true⟩ []).mpr (by norm_num)

end CycleClaims

section InputClaims

/-- Claim C8: a user-supplied focus duration that is unparsable
(`ValueError` from `int()`) or non-positive falls back to the
configured default — the session then runs with the default planned
minutes — and for every possible input the selection totally returns
either the default or the positive value supplied, so the malformed
input is never propagated as a fatal error. -/
theorem focus_duration_fallback (inp : DurationInput) (dflt : ℤ)
    (hmal : inp = DurationInput.invalid ∨
      ∃ n : ℤ, inp = DurationInput.value n ∧ n ≤ 0) :
    screen_focus_session_minutes inp dflt = dflt ∧
      (∀ inp2 : DurationInput,
        screen_focus_session_minutes inp2 dflt = dflt ∨
          ∃ n : ℤ, 0 < n ∧ inp2 = DurationInput.value n ∧
            screen_focus_session_minutes inp2 dflt = n) := by
  constructor
  · rcases hmal with h | ⟨n, h, hn⟩
    · rw [h]
      rfl
    · rw [h]
      simp [screen_focus_session_minutes, clamp_to_default, hn]
  · intro inp2
    match inp2 with
    | .empty =>
      left
      simp only [screen_focus_session_minutes, clamp_to_default]
      split <;> rfl
    | .invalid => left; rfl
    | .value n =>
      by_cases hn : n ≤ 0
      · left
        simp [screen_focus_session_minutes, clamp_to_default, hn]
      · right
        refine ⟨n, by omega, rfl, ?_⟩
        simp [screen_focus_session_minutes, clamp_to_default, hn]

/-- Concrete instance of the C8 theorem: the unparsable input falls
back to the default of 25. -/
theorem focus_duration_fallback_witness :
    screen_focus_session_minutes DurationInput.invalid 25 = 25 :=
  (focus_duration_fallback DurationInput.invalid 25 (Or.inl rfl)).1

end InputClaims

section StatsBasic

/-- Any report produced by `compute_stats` is the one built by
`mk_report`. -/
theorem compute_stats_eq_some {recs : List SessionRecord} {today : ℤ}
    {rep : StatsReport} (h : compute_stats recs today = some rep) :
    rep = mk_report recs today := by
  rw [compute_stats] at h
  split at h
  · exact absurd h (by simp)
  · exact (Option.some_inj.mp h).symm

/-- A log with no focus-typed records has no focus sessions. -/
theorem focus_sessions_nil_of_no_focus {recs : List SessionRecord}
    (h : ∀ r ∈ recs, r.type ≠ "focus") : focus_sessions recs = [] := by
  rw [focus_sessions, List.filter_eq_nil_iff]
  intro r hr
  simpa using h r hr

/-- An absent daily bucket contributes no minutes. -/
theorem daily_minutes_eq_zero {recs : List SessionRecord} {d : ℤ}
    (h : daily_sessions recs d = 0) : daily_minutes recs d = 0 := by
  rw [daily_sessions] at h
  rw [daily_minutes, List.length_eq_zero.mp h]
  rfl

/-- Characterisation of the backward current-streak walk: starting at
`d` with `fuel` budget and accumulator `acc`, it adds the length `k` of
the maximal all-active backward run from `d` (capped by `fuel`), and
when uncapped the day just below the run is inactive. -/
theorem current_streak_go_spec (active : ℤ → Bool) :
    ∀ (fuel : ℕ) (d : ℤ) (acc : ℕ),
      ∃ k : ℕ,
        current_streak_go active fuel d acc = acc + k ∧ k ≤ fuel ∧
        (∀ i : ℕ, i < k → active (d - (i : ℤ)) = true) ∧
        (k < fuel → active (d - (k : ℤ)) = false) := by
  intro fuel
  induction fuel with
  | zero =>
    intro d acc
    exact ⟨0, rfl, Nat.le_refl 0, by omega, by omega⟩
  | succ f ih =>
    intro d acc
    by_cases hact : active d = true
    · obtain ⟨k, h1, h2, h3, h4⟩ := ih (d - 1) (acc + 1)
      refine ⟨k + 1, ?_, by omega, ?_, ?_⟩
      · rw [current_streak_go, if_pos hact, h1]
        omega
      · intro i hi
        match i with
        | 0 => simpa using hact
        | j + 1 =>
          have harith : d - ((j + 1 : ℕ) : ℤ) = (d - 1) - (j : ℤ) := by
            push_cast
            ring
          rw [harith]
          exact h3 j (by omega)
      · intro hk
        have harith : d - ((k + 1 : ℕ) : ℤ) = (d - 1) - (k : ℤ) := by
          push_cast
          ring
        rw [harith]
        exact h4 (by omega)
    · simp only [Bool.not_eq_true] at hact
      refine ⟨0, ?_, by omega, by omega, fun _ => ?_⟩
      · rw [current_streak_go, if_neg (by simp [hact])]
        omega
      · simpa using hact

/-- The current streak visits only active days, stops at an inactive
day when below the 365-day cap, and never exceeds the cap. -/
theorem current_streak_spec (recs : List SessionRecord) (today : ℤ) :
    (∀ i : ℕ, i < current_streak recs today →
        active_day recs (today - (i : ℤ)) = true)
    ∧ (current_streak recs today < 365 →
        active_day recs (today - (current_streak recs today : ℤ)) = false)
    ∧ current_streak recs today ≤ 365 := by
  obtain ⟨k, h1, h2, h3, h4⟩ :=
    current_streak_go_spec (active_day recs) 365 today 0
  have hk : current_streak recs today = k := by
    rw [current_streak, h1]
    omega
  rw [hk]
  exact ⟨h3, h4, h2⟩

/-- Sum of a point indicator over the last `n` dates ending at `t`. -/
theorem sum_range_hit {M : Type} [AddCommMonoid M] (a : M) :
    ∀ (n : ℕ) (t d : ℤ),
      (∑ i ∈ Finset.range n, if d = t - (i : ℤ) then a else 0)
        = if t - (n : ℤ) < d ∧ d ≤ t then a else 0 := by
  intro n
  induction n with
  | zero =>
    intro t d
    rw [Finset.range_zero, Finset.sum_empty, if_neg (by push_cast; omega)]
  | succ m ih =>
    intro t d
    rw [Finset.sum_range_succ, ih]
    by_cases hd : d = t - (m : ℤ)
    · rw [if_neg (by omega), if_pos hd, if_pos (by push_cast; omega), zero_add]
    · rw [if_neg hd, add_zero]
      by_cases hw : t - (m : ℤ) < d ∧ d ≤ t
      · rw [if_pos hw, if_pos (by push_cast; omega)]
      · rw [if_neg hw, if_neg (by push_cast; omega)]

/-- Summing a per-record quantity over the seven daily buckets ending
at `t` equals summing it over the records whose calendar day falls in
the window, independently of any other field. -/
theorem window_filter_sum {M : Type} [AddCommMonoid M]
    (f : SessionRecord → M) :
    ∀ (l : List SessionRecord) (t : ℤ),
      (∑ i ∈ Finset.range 7,
        ((l.filter fun s => decide (s.day = t - (i : ℤ))).map f).sum)
      = ((l.filter fun s => decide (t - 6 ≤ s.day ∧ s.day ≤ t)).map f).sum := by
  intro l
  induction l with
  | nil =>
    intro t
    simp
  | cons r tail ih =>
    intro t
    have hstep : ∀ i ∈ Finset.range 7,
        (((r :: tail).filter fun s => decide (s.day = t - (i : ℤ))).map f).sum
          = (if r.day = t - (i : ℤ) then f r else 0)
            + ((tail.filter fun s => decide (s.day = t - (i : ℤ))).map f).sum := by
      intro i _
      by_cases hc : r.day = t - (i : ℤ)
      · rw [List.filter_cons, if_pos (by simpa using hc), List.map_cons,
          List.sum_cons, if_pos hc]
      · rw [List.filter_cons, if_neg (by simpa using hc), if_neg hc, zero_add]
    have hrhs :
        (((r :: tail).filter fun s =>
            decide (t - 6 ≤ s.day ∧ s.day ≤ t)).map f).sum
          = (if t - 6 ≤ r.day ∧ r.day ≤ t then f r else 0)
            + ((tail.filter fun s =>
                decide (t - 6 ≤ s.day ∧ s.day ≤ t)).map f).sum := by
      by_cases hc : t - 6 ≤ r.day ∧ r.day ≤ t
      · rw [List.filter_cons, if_pos (by simpa using hc), List.map_cons,
          List.sum_cons, if_pos hc]
      · rw [List.filter_cons, if_neg (by simpa using hc), if_neg hc, zero_add]
    rw [Finset.sum_congr rfl hstep, Finset.sum_add_distrib, ih,
      sum_range_hit, hrhs]
    have hiff : (t - ((7 : ℕ) : ℤ) < r.day ∧ r.day ≤ t)
        ↔ (t - 6 ≤ r.day ∧ r.day ≤ t) := by
      push_cast
      omega
    rw [if_congr hiff rfl rfl]

/-- The length of a list as the sum of ones. -/
theorem list_length_eq_sum_ones {α : Type} (l : List α) :
    l.length = (l.map fun _ => (1 : ℕ)).sum := by
  induction l with
  | nil => rfl
  | cons a t ih =>
    rw [List.length_cons, List.map_cons, List.sum_cons, ih]
    omega

end StatsBasic

section StatsClaimsBasic

/-- Claim C4: `compute_stats` on an empty log returns the explicit
"no data" result (`none`, the empty dict) rather than a computed
report, and on any produced report the completion rate is
`completed / total * 100` guarded so that it is `0` when there are no
focus sessions — the divisor is nonzero whenever the division is
taken. -/
theorem stats_empty_and_completion_rate :
    (∀ today : ℤ, compute_stats [] today = none)
    ∧ (∀ (recs : List SessionRecord) (today : ℤ) (rep : StatsReport),
        compute_stats recs today = some rep →
        rep.completion_rate
          = (if focus_sessions recs = [] then 0
             else ((completed_focus recs).length : ℚ)
               / ((focus_sessions recs).length : ℚ) * 100)
        ∧ (focus_sessions recs = [] → rep.completion_rate = 0)
        ∧ (focus_sessions recs ≠ [] →
            ((focus_sessions recs).length : ℚ) ≠ 0)) := by
  constructor
  · intro today
    rfl
  · intro recs today rep h
    have hrep := compute_stats_eq_some h
    subst hrep
    refine ⟨rfl, ?_, ?_⟩
    · intro hnil
      have hproj : (mk_report recs today).completion_rate
          = (if focus_sessions recs = [] then (0 : ℚ)
             else ((completed_focus recs).length : ℚ)
               / ((focus_sessions recs).length : ℚ) * 100) := rfl
      rw [hproj, if_pos hnil]
    · intro hne
      have hlen : (focus_sessions recs).length ≠ 0 :=
        fun h0 => hne (List.length_eq_zero.mp h0)
      exact_mod_cast Nat.cast_ne_zero.mpr hlen

/-- Concrete instance of the C4 theorem: the empty log yields the
empty result. -/
theorem stats_empty_and_completion_rate_witness :
    compute_stats [] 0 = none :=
  stats_empty_and_completion_rate.1 0

/-- Claim C5: the reported current streak walks backward day-by-day
from `today`: every visited day (all days `today - i` for
`i < current_streak`) has a completed focus session, the walk stops at
the first inactive day (whenever the 365-day cap is not hit, the day
after the counted run is inactive), the walk is capped at 365 days,
and the streak is 0 when today's bucket has no completed focus
session. -/
theorem stats_current_streak_walk (recs : List SessionRecord)
    (today : ℤ) (rep : StatsReport)
    (h : compute_stats recs today = some rep) :
    (∀ i : ℕ, i < rep.current_streak →
        active_day recs (today - (i : ℤ)) = true)
    ∧ (rep.current_streak < 365 →
        active_day recs (today - (rep.current_streak : ℤ)) = false)
    ∧ rep.current_streak ≤ 365
    ∧ (active_day recs today = false → rep.current_streak = 0) := by
  have hrep := compute_stats_eq_some h
  have hcur : rep.current_streak = current_streak recs today := by
    rw [hrep]
    rfl
  rw [hcur]
  obtain ⟨h1, h2, h3⟩ := current_streak_spec recs today
  refine ⟨h1, h2, h3, ?_⟩
  intro hina
  by_contra hne
  have hpos : 0 < current_streak recs today := Nat.pos_of_ne_zero hne
  have h0 := h1 0 hpos
  rw [show today - ((0 : ℕ) : ℤ) = today by push_cast; ring] at h0
  rw [hina] at h0
  exact Bool.false_ne_true h0

/-- Concrete instance of the C5 theorem: a log with one completed
focus session today has today active on the walk. -/
theorem stats_current_streak_walk_witness :
    active_day log_one ((0 : ℤ) - ((0 : ℕ) : ℤ)) = true :=
  (stats_current_streak_walk log_one 0 (mk_report log_one 0)
      (by simp [compute_stats, log_one])).1 0 (by decide)

/-- Claim C7: the reported weekly totals are the sums of the bucket
fields over exactly the 7 calendar-day buckets for `today` and the 6
preceding dates, and equal the sums over the focus records whose
calendar day lies in that window — by calendar date, independent of
the hour of day a session started. -/
theorem stats_week_window (recs : List SessionRecord) (today : ℤ)
    (rep : StatsReport) (h : compute_stats recs today = some rep) :
    rep.week_minutes
        = ∑ i ∈ Finset.range 7, daily_minutes recs (today - (i : ℤ))
    ∧ rep.week_sessions
        = ∑ i ∈ Finset.range 7, daily_sessions recs (today - (i : ℤ))
    ∧ rep.week_minutes
        = (((focus_sessions recs).filter fun s =>
            decide (today - 6 ≤ s.day ∧ s.day ≤ today)).map
              fun s => s.actual_minutes).sum
    ∧ rep.week_sessions
        = ((focus_sessions recs).filter fun s =>
            decide (today - 6 ≤ s.day ∧ s.day ≤ today)).length := by
  have hrep := compute_stats_eq_some h
  have hmin : rep.week_minutes = week_minutes recs today := by
    rw [hrep]
    rfl
  have hses : rep.week_sessions = week_sessions recs today := by
    rw [hrep]
    rfl
  have hm2 : week_minutes recs today
      = ∑ i ∈ Finset.range 7, daily_minutes recs (today - (i : ℤ)) := by
    rw [week_minutes]
    apply Finset.sum_congr rfl
    intro i _
    by_cases hp : 0 < daily_sessions recs (today - (i : ℤ))
    · rw [if_pos hp]
    · rw [if_neg hp]
      exact (daily_minutes_eq_zero (by omega)).symm
  have hs2 : week_sessions recs today
      = ∑ i ∈ Finset.range 7, daily_sessions recs (today - (i : ℤ)) := by
    rw [week_sessions]
    apply Finset.sum_congr rfl
    intro i _
    by_cases hp : 0 < daily_sessions recs (today - (i : ℤ))
    · rw [if_pos hp]
    · rw [if_neg hp]
      omega
  refine ⟨by rw [hmin, hm2], by rw [hses, hs2], ?_, ?_⟩
  · rw [hmin, hm2]
    exact window_filter_sum (fun s => s.actual_minutes) (focus_sessions recs)
      today
  · rw [hses, hs2]
    have := window_filter_sum (fun _ => (1 : ℕ)) (focus_sessions recs) today
    rw [← list_length_eq_sum_ones] at this
    rw [← this]
    apply Finset.sum_congr rfl
    intro i _
    rw [daily_sessions, list_length_eq_sum_ones]

/-- Concrete instance of the C7 theorem on the gap log. -/
theorem stats_week_window_witness :
    (mk_report log_gap 7).week_minutes
      = ∑ i ∈ Finset.range 7, daily_minutes log_gap ((7 : ℤ) - (i : ℤ)) :=
  (stats_week_window log_gap 7 (mk_report log_gap 7)
      (by simp [compute_stats, log_gap])).1

end StatsClaimsBasic

section StatsNoFocus

/-- A walk starting on an inactive day counts nothing. -/
theorem current_streak_eq_zero {recs : List SessionRecord} {today : ℤ}
    (h : active_day recs today = false) :
    current_streak recs today = 0 := by
  obtain ⟨h1, _, _⟩ := current_streak_spec recs today
  by_contra hne
  have h0 := h1 0 (Nat.pos_of_ne_zero hne)
  rw [show today - ((0 : ℕ) : ℤ) = today by push_cast; ring, h] at h0
  exact Bool.false_ne_true h0

/-- With no focus sessions every day is inactive. -/
theorem active_day_false_of_no_focus {recs : List SessionRecord}
    (hfoc : focus_sessions recs = []) (d : ℤ) :
    active_day recs d = false := by
  have hc : daily_completed recs d = 0 := by
    rw [daily_completed, completed_focus, hfoc]
    rfl
  rw [active_day, hc]
  rfl

/-- With no focus sessions the sorted day-key list is empty. -/
theorem sorted_days_nil_of_no_focus {recs : List SessionRecord}
    (hfoc : focus_sessions recs = []) : sorted_days recs = [] := by
  rw [sorted_days, daily_days, hfoc]
  rfl

/-- Claim C10: the "no data" result is produced exactly for a literally
empty log; a non-empty log with no focus-typed records (for example
only break records) still yields a full report, with completion rate 0,
both streaks 0, empty daily and hourly key sets, zero weekly sums and
no best day. -/
theorem stats_no_focus_full_report :
    (∀ (recs : List SessionRecord) (today : ℤ),
        compute_stats recs today = none ↔ recs = [])
    ∧ (∀ (recs : List SessionRecord) (today : ℤ),
        recs ≠ [] → (∀ r ∈ recs, r.type ≠ "focus") →
        compute_stats recs today = some (mk_report recs today)
        ∧ (mk_report recs today).completion_rate = 0
        ∧ (mk_report recs today).current_streak = 0
        ∧ (mk_report recs today).best_streak = 0
        ∧ (mk_report recs today).daily_days = []
        ∧ (mk_report recs today).hourly_hours = []
        ∧ (mk_report recs today).week_minutes = 0
        ∧ (mk_report recs today).week_sessions = 0
        ∧ (mk_report recs today).best_day = none) := by
  constructor
  · intro recs today
    rw [compute_stats]
    by_cases hr : recs = []
    · rw [if_pos hr]
      simp [hr]
    · rw [if_neg hr]
      simp [hr]
  · intro recs today hne hnf
    have hfoc : focus_sessions recs = [] := focus_sessions_nil_of_no_focus hnf
    have hsd : sorted_days recs = [] := sorted_days_nil_of_no_focus hfoc
    have hds : ∀ d : ℤ, daily_sessions recs d = 0 := by
      intro d
      rw [daily_sessions, hfoc]
      rfl
    refine ⟨?_, ?_, ?_, ?_, ?_, ?_, ?_, ?_, ?_⟩
    · rw [compute_stats, if_neg hne]
    · have hproj : (mk_report recs today).completion_rate
          = (if focus_sessions recs = [] then (0 : ℚ)
             else ((completed_focus recs).length : ℚ)
               / ((focus_sessions recs).length : ℚ) * 100) := rfl
      rw [hproj, if_pos hfoc]
    · have hproj : (mk_report recs today).current_streak
          = current_streak recs today := rfl
      rw [hproj]
      exact current_streak_eq_zero (active_day_false_of_no_focus hfoc today)
    · have hproj : (mk_report recs today).best_streak
          = best_streak recs := rfl
      rw [hproj, best_streak, hsd]
      rfl
    · have hproj : (mk_report recs today).daily_days
          = daily_days recs := rfl
      rw [hproj, daily_days, hfoc]
      rfl
    · have hproj : (mk_report recs today).hourly_hours
          = hourly_hours recs := rfl
      rw [hproj, hourly_hours, hfoc]
      rfl
    · have hproj : (mk_report recs today).week_minutes
          = week_minutes recs today := rfl
      rw [hproj, week_minutes]
      apply Finset.sum_eq_zero
      intro i _
      rw [if_neg (by rw [hds]; omega)]
    · have hproj : (mk_report recs today).week_sessions
          = week_sessions recs today := rfl
      rw [hproj, week_sessions]
      apply Finset.sum_eq_zero
      intro i _
      rw [if_neg (by rw [hds]; omega)]
    · have hproj : (mk_report recs today).best_day
          = best_day recs := rfl
      rw [hproj, best_day, hsd]

/-- Concrete instance of the C10 theorem: one short-break record gives
a full report, not the empty result. -/
theorem stats_no_focus_full_report_witness :
    compute_stats log_break 0 = some (mk_report log_break 0) :=
  (stats_no_focus_full_report.2 log_break 0 (by simp [log_break])
    (by decide)).1

end StatsNoFocus

section BestStreak

/-- The sorted day keys are strictly increasing. -/
theorem sorted_days_pairwise (recs : List SessionRecord) :
    (sorted_days recs).Pairwise (· < ·) := by
  have hsorted : (sorted_days recs).Sorted (· ≤ ·) :=
    List.sorted_insertionSort (· ≤ ·) (daily_days recs)
  have hnodup : (sorted_days recs).Nodup :=
    (List.Perm.nodup_iff
      (List.perm_insertionSort (· ≤ ·) (daily_days recs))).mpr
      (List.nodup_dedup _)
  exact hsorted.lt_of_le hnodup

/-- A day with a completed focus session appears among the sorted day
keys. -/
theorem active_day_mem_sorted {recs : List SessionRecord} {e : ℤ}
    (h : active_day recs e = true) : e ∈ sorted_days recs := by
  rw [active_day, decide_eq_true_eq, daily_completed] at h
  have hne : ((completed_focus recs).filter fun s => decide (s.day = e)) ≠ [] := by
    intro hnil
    rw [hnil] at h
    simp at h
  obtain ⟨r, t, hrt⟩ := List.exists_cons_of_ne_nil hne
  have hrmem : r ∈ (completed_focus recs).filter fun s => decide (s.day = e) := by
    rw [hrt]
    exact List.mem_cons_self r t
  obtain ⟨hrin, hrday⟩ := List.mem_filter.mp hrmem
  have hrfoc : r ∈ focus_sessions recs := List.mem_of_mem_filter hrin
  have hday : r.day = e := of_decide_eq_true hrday
  rw [sorted_days]
  rw [(List.perm_insertionSort (· ≤ ·) (daily_days recs)).mem_iff]
  rw [daily_days, List.mem_dedup]
  exact List.mem_map.mpr ⟨r, hrfoc, hday⟩

/-- The loop result is at least the incoming best. -/
theorem best_streak_go_le (active : ℤ → Bool) :
    ∀ (days : List ℤ) (prev : Option ℤ) (streak best : ℕ),
      best ≤ best_streak_go active days prev streak best := by
  intro days
  induction days with
  | nil => intro prev streak best; exact le_refl best
  | cons d rest ih =>
    intro prev streak best
    rw [best_streak_go]
    by_cases hact : active d = true
    · rw [if_pos hact]
      exact le_trans (le_max_left _ _) (ih _ _ _)
    · rw [if_neg hact]
      exact ih _ _ _

/-- Some backward run of active days witnesses the loop result. -/
theorem best_streak_go_sound (active : ℤ → Bool) :
    ∀ (days : List ℤ) (prev : Option ℤ) (streak best : ℕ),
      (∀ q : ℤ, prev = some q → RunEndAt active q streak) →
      (∃ q : ℤ, RunEndAt active q best) →
      ∃ q : ℤ, RunEndAt active q (best_streak_go active days prev streak best) := by
  intro days
  induction days with
  | nil =>
    intro prev streak best _ hbest
    exact hbest
  | cons d rest ih =>
    intro prev streak best hprev hbest
    rw [best_streak_go]
    by_cases hact : active d = true
    · rw [if_pos hact]
      have hs : RunEndAt active d (streak_next prev d streak) := by
        match prev with
        | none =>
          intro i hi
          have hi1 : i < 1 := hi
          interval_cases i
          simpa using hact
        | some p =>
          rw [streak_next]
          by_cases hp : p = d - 1
          · rw [if_pos hp]
            intro i hi
            match i with
            | 0 => simpa using hact
            | j + 1 =>
              have harith : d - ((j + 1 : ℕ) : ℤ) = p - (j : ℤ) := by
                rw [hp]
                push_cast
                ring
              rw [harith]
              exact hprev p rfl j (by omega)
          · rw [if_neg hp]
            intro i hi
            interval_cases i
            simpa using hact
      apply ih
      · intro q hq
        injection hq with hq2
        rw [← hq2]
        exact hs
      · rcases le_total best (streak_next prev d streak) with hle | hle
        · rw [max_eq_right hle]
          exact ⟨d, hs⟩
        · rw [max_eq_left hle]
          exact hbest
    · rw [if_neg hact]
      apply ih
      · intro q _ i hi
        exact absurd hi (Nat.not_lt_zero i)
      · exact hbest

/-- A backward run ending at `q` is a forward run from `q - (n - 1)`. -/
theorem run_end_at_shift {active : ℤ → Bool} {q : ℤ} {n : ℕ}
    (h : RunEndAt active q n) :
    RunFrom active (q - ((n - 1 : ℕ) : ℤ)) n := by
  intro i hi
  have harith : q - ((n - 1 : ℕ) : ℤ) + (i : ℤ) = q - ((n - 1 - i : ℕ) : ℤ) := by
    omega
  rw [harith]
  exact h (n - 1 - i) (by omega)

/-- Once inside a block of consecutive present active days, the loop
accumulates the streak across the whole block. -/
theorem best_streak_go_block (active : ℤ → Bool) :
    ∀ (days : List ℤ) (q : ℤ) (m streak best : ℕ),
      1 ≤ m →
      days.Pairwise (· < ·) →
      (∀ e ∈ days, q < e) →
      (∀ i : ℕ, i < m → active (q + 1 + (i : ℤ)) = true) →
      (∀ i : ℕ, i < m → (q + 1 + (i : ℤ)) ∈ days) →
      streak + m ≤ best_streak_go active days (some q) streak best := by
  intro days
  induction days with
  | nil =>
    intro q m streak best hm _ _ _ hmem
    have := hmem 0 (by omega)
    simp at this
  | cons d rest ih =>
    intro q m streak best hm hpair hgt hrun hmem
    have hd : d = q + 1 := by
      have h1 : (q + 1 : ℤ) ∈ d :: rest := by
        have := hmem 0 (by omega)
        simpa using this
      rcases List.mem_cons.mp h1 with heq | hmem2
      · omega
      · have hdlt : d < q + 1 := (List.pairwise_cons.mp hpair).1 _ hmem2
        have hqd : q < d := hgt d (List.mem_cons_self d rest)
        omega
    have hact : active d = true := by
      have := hrun 0 (by omega)
      rw [hd]
      simpa using this
    rw [best_streak_go, if_pos hact]
    have hsn : streak_next (some q) d streak = streak + 1 := by
      rw [streak_next, if_pos (by omega)]
    rw [hsn]
    match m with
    | 0 => exact absurd hm (by omega)
    | 1 =>
      calc streak + 1 ≤ max best (streak + 1) := le_max_right _ _
        _ ≤ _ := best_streak_go_le active rest (some d) (streak + 1) _
    | m2 + 2 =>
      have hblock := ih d (m2 + 1) (streak + 1) (max best (streak + 1))
        (by omega)
        (List.pairwise_cons.mp hpair).2
        (fun e he => (List.pairwise_cons.mp hpair).1 e he)
        (fun i hi => by
          have hr := hrun (i + 1) (by omega)
          have harith : q + 1 + ((i + 1 : ℕ) : ℤ) = d + 1 + (i : ℤ) := by
            rw [hd]
            push_cast
            ring
          rw [harith] at hr
          exact hr)
        (fun i hi => by
          have hm3 := hmem (i + 1) (by omega)
          have harith : q + 1 + ((i + 1 : ℕ) : ℤ) = d + 1 + (i : ℤ) := by
            rw [hd]
            push_cast
            ring
          rw [harith] at hm3
          rcases List.mem_cons.mp hm3 with heq | hin
          · exact absurd heq (by omega)
          · exact hin)
      omega

/-- Any run of consecutive active days, all present in the strictly
sorted list, bounds the loop result from below. -/
theorem best_streak_go_run (active : ℤ → Bool) :
    ∀ (days : List ℤ) (d0 : ℤ) (m : ℕ) (prev : Option ℤ) (streak best : ℕ),
      1 ≤ m →
      days.Pairwise (· < ·) →
      (∀ i : ℕ, i < m → active (d0 + (i : ℤ)) = true) →
      (∀ i : ℕ, i < m → (d0 + (i : ℤ)) ∈ days) →
      m ≤ best_streak_go active days prev streak best := by
  intro days
  induction days with
  | nil =>
    intro d0 m prev streak best hm _ _ hmem
    have := hmem 0 (by omega)
    simp at this
  | cons d rest ih =>
    intro d0 m prev streak best hm hpair hrun hmem
    have hd0mem : d0 ∈ d :: rest := by
      have := hmem 0 (by omega)
      simpa using this
    by_cases hcase : d = d0
    · have hact : active d = true := by
        have := hrun 0 (by omega)
        rw [hcase]
        simpa using this
      rw [best_streak_go, if_pos hact]
      have hs1 : 1 ≤ streak_next prev d streak := by
        match prev with
        | none => exact le_refl 1
        | some p =>
          rw [streak_next]
          split <;> omega
      match m with
      | 0 => exact absurd hm (by omega)
      | 1 =>
        calc 1 ≤ streak_next prev d streak := hs1
          _ ≤ max best (streak_next prev d streak) := le_max_right _ _
          _ ≤ _ := best_streak_go_le active rest (some d) _ _
      | m2 + 2 =>
        have hblock := best_streak_go_block active rest d (m2 + 1)
          (streak_next prev d streak)
          (max best (streak_next prev d streak))
          (by omega)
          (List.pairwise_cons.mp hpair).2
          (fun e he => (List.pairwise_cons.mp hpair).1 e he)
          (fun i hi => by
            have hr := hrun (i + 1) (by omega)
            have harith : d0 + ((i + 1 : ℕ) : ℤ) = d + 1 + (i : ℤ) := by
              rw [hcase]
              push_cast
              ring
            rw [harith] at hr
            exact hr)
          (fun i hi => by
            have hm3 := hmem (i + 1) (by omega)
            have harith : d0 + ((i + 1 : ℕ) : ℤ) = d + 1 + (i : ℤ) := by
              rw [hcase]
              push_cast
              ring
            rw [harith] at hm3
            rcases List.mem_cons.mp hm3 with heq | hin
            · exact absurd heq (by omega)
            · exact hin)
        omega
    · have hd0rest : d0 ∈ rest := by
        rcases List.mem_cons.mp hd0mem with heq | hin
        · exact absurd heq (fun h2 => hcase h2.symm)
        · exact hin
      have hdlt : d < d0 := (List.pairwise_cons.mp hpair).1 d0 hd0rest
      have hmem2 : ∀ i : ℕ, i < m → (d0 + (i : ℤ)) ∈ rest := by
        intro i hi
        rcases List.mem_cons.mp (hmem i hi) with heq | hin
        · exact absurd heq (by omega)
        · exact hin
      rw [best_streak_go]
      by_cases hact : active d = true
      · rw [if_pos hact]
        exact ih d0 m (some d) _ _ hm (List.pairwise_cons.mp hpair).2
          hrun hmem2
      · rw [if_neg hact]
        exact ih d0 m (some d) 0 best hm (List.pairwise_cons.mp hpair).2
          hrun hmem2

/-- The reported best streak is the greatest length of a run of
consecutive calendar days each with a completed focus session. -/
theorem best_streak_is_greatest (recs : List SessionRecord) :
    IsGreatest {n : ℕ | ∃ d : ℤ, RunFrom (active_day recs) d n}
      (best_streak recs) := by
  constructor
  · obtain ⟨q, hq⟩ := best_streak_go_sound (active_day recs)
      (sorted_days recs) none 0 0 (fun q hq => by cases hq)
      ⟨0, fun i hi => absurd hi (Nat.not_lt_zero i)⟩
    exact ⟨q - ((best_streak recs - 1 : ℕ) : ℤ), run_end_at_shift hq⟩
  · intro n hn
    obtain ⟨d, hd⟩ := hn
    match n with
    | 0 => exact Nat.zero_le _
    | n2 + 1 =>
      exact best_streak_go_run (active_day recs) (sorted_days recs) d
        (n2 + 1) none 0 0 (by omega) (sorted_days_pairwise recs) hd
        (fun i hi => active_day_mem_sorted (hd i hi))

end BestStreak

section StreakClaims

/-- Claim C6: the best streak reported by `compute_stats` equals the
length of the longest run of consecutive calendar days each containing
at least one completed focus session; in particular, for completed
focus sessions on five consecutive days, a one-day gap, then two more
days, the best streak is 5, and for completed sessions on 2024-01-01
through 2024-01-03 (days 0–2) with none on 2024-01-04 and today =
2024-01-05 (day 4), the current streak is 0 and the best streak is at
least 3. -/
theorem stats_best_streak_longest_run :
    (∀ recs : List SessionRecord,
      IsGreatest {n : ℕ | ∃ d : ℤ, RunFrom (active_day recs) d n}
        (best_streak recs))
    ∧ (∀ (recs : List SessionRecord) (today : ℤ) (rep : StatsReport),
        compute_stats recs today = some rep →
        rep.best_streak = best_streak recs)
    ∧ best_streak log_gap = 5
    ∧ current_streak log_jan 4 = 0
    ∧ 3 ≤ best_streak log_jan := by
  refine ⟨best_streak_is_greatest, ?_, ?_, ?_, ?_⟩
  · intro recs today rep h
    rw [compute_stats_eq_some h]
    rfl
  · decide
  · decide
  · decide

/-- Concrete instance of the C6 theorem. -/
theorem stats_best_streak_longest_run_witness :
    best_streak log_gap = 5 ∧ 3 ≤ best_streak log_jan :=
  ⟨stats_best_streak_longest_run.2.2.1,
    stats_best_streak_longest_run.2.2.2.2⟩

/-- Claim C9: for every non-empty session log and every value of
"today", the reported best streak is at least the reported current
streak. -/
theorem stats_best_streak_ge_current (recs : List SessionRecord)
    (today : ℤ) (rep : StatsReport) (hne : recs ≠ [])
    (h : compute_stats recs today = some rep) :
    rep.current_streak ≤ rep.best_streak := by
  have hrep := compute_stats_eq_some h
  have hcur : rep.current_streak = current_streak recs today := by
    rw [hrep]
    rfl
  have hbest : rep.best_streak = best_streak recs := by
    rw [hrep]
    rfl
  rw [hcur, hbest]
  obtain ⟨h1, _, _⟩ := current_streak_spec recs today
  exact (best_streak_is_greatest recs).2
    ⟨today - ((current_streak recs today - 1 : ℕ) : ℤ), run_end_at_shift h1⟩

/-- Concrete instance of the C9 theorem. -/
theorem stats_best_streak_ge_current_witness :
    (mk_report log_one 0).current_streak ≤ (mk_report log_one 0).best_streak :=
  stats_best_streak_ge_current log_one 0 (mk_report log_one 0)
    (by simp [log_one]) (by simp [compute_stats, log_one])

end StreakClaims

end PomodoroTimer
